import Mathlib

/-!
# Verification of a Brainfuck IR compiler and interpreter

Shallow embedding of `src/main_ir.rs`: the opcode-to-IR compaction pass
(`Code::from`) with run-length folding and loop back-patching, and the
tape-based interpreter (`Interpreter::run`).

Machine integers are modelled as `Nat` with explicit wrapping:
`u8` counts wrap modulo `256` (Rust `overflowing_add`/`overflowing_sub`),
`u32` counts wrap modulo `2 ^ 32`, and the `usize` data pointer wraps
modulo `2 ^ 64` (release-build two's-complement semantics). A Rust panic
(index out of bounds, `unreachable!`) and a propagated `Err` are both
modelled as explicit error results.
-/

namespace BF

/-- The eight opcodes of `opcode::Opcode`, as used by `main_ir.rs`. -/
inductive Opcode where
  | SHR
  | SHL
  | ADD
  | SUB
  | PUTCHAR
  | GETCHAR
  | LB
  | RB
deriving DecidableEq, Repr

/-- The IR of `main_ir.rs`: counts for SHR/SHL are `u32`, for ADD/SUB `u8`;
JIZ/JNZ carry absolute instruction indices. -/
inductive IR where
  | SHR (x : Nat)
  | SHL (x : Nat)
  | ADD (x : Nat)
  | SUB (x : Nat)
  | PUTCHAR
  | GETCHAR
  | JIZ (x : Nat)
  | JNZ (x : Nat)
deriving DecidableEq, Repr

/-- `pub struct Code { pub instrs: Vec<IR> }` -/
structure Code where
  instrs : List IR
deriving DecidableEq, Repr

/-- `u32` modulus. -/
def U32 : Nat := 2 ^ 32

/-- `u8` modulus. -/
def U8 : Nat := 256

/-- `usize` modulus. -/
def USIZE : Nat := 2 ^ 64

/-- One iteration of the `for e in data` loop of `Code::from`. The loop
state is the pair of the emitted instruction list `instrs` and the
pending-loop stack `jstack` (head = top of the Rust `Vec`).
`instrs.last_mut()` merging is modelled by replacing the last element;
`jstack.pop()` on empty yields the `"pop from empty list"` error; the
`unreachable!()` arm of the back-patch and an out-of-range index are
modelled as an `"unreachable"` error. -/
def compileStep : List IR × List Nat → Opcode → Except String (List IR × List Nat)
  | (instrs, jstack), .SHR =>
    match instrs.getLast? with
    | some (.SHR x) => .ok (instrs.dropLast ++ [.SHR ((x + 1) % U32)], jstack)
    | _ => .ok (instrs ++ [.SHR 1], jstack)
  | (instrs, jstack), .SHL =>
    match instrs.getLast? with
    | some (.SHL x) => .ok (instrs.dropLast ++ [.SHL ((x + 1) % U32)], jstack)
    | _ => .ok (instrs ++ [.SHL 1], jstack)
  | (instrs, jstack), .ADD =>
    match instrs.getLast? with
    | some (.ADD x) => .ok (instrs.dropLast ++ [.ADD ((x + 1) % U8)], jstack)
    | _ => .ok (instrs ++ [.ADD 1], jstack)
  | (instrs, jstack), .SUB =>
    match instrs.getLast? with
    | some (.SUB x) => .ok (instrs.dropLast ++ [.SUB ((x + 1) % U8)], jstack)
    | _ => .ok (instrs ++ [.SUB 1], jstack)
  | (instrs, jstack), .PUTCHAR => .ok (instrs ++ [.PUTCHAR], jstack)
  | (instrs, jstack), .GETCHAR => .ok (instrs ++ [.GETCHAR], jstack)
  | (instrs, jstack), .LB => .ok (instrs ++ [.JIZ 0], instrs.length :: jstack)
  | (instrs, jstack), .RB =>
    match jstack with
    | [] => .error "pop from empty list"
    | j :: rest =>
      match (instrs ++ [IR.JNZ j])[j]? with
      | some (IR.JIZ _) => .ok ((instrs ++ [IR.JNZ j]).set j (IR.JIZ instrs.length), rest)
      | _ => .error "unreachable"

/-- The `for` loop of `Code::from`, processing the opcode list from an
arbitrary loop state. -/
def fromAux : List Opcode → List IR × List Nat → Except String (List IR × List Nat)
  | [], st => .ok st
  | e :: rest, st =>
    match compileStep st e with
    | Except.error s => .error s
    | Except.ok st' => fromAux rest st'

/-- `Code::from(data)`: run the loop from empty state and discard the
pending-loop stack. -/
def Code.fromOps (data : List Opcode) : Except String Code :=
  match fromAux data ([], []) with
  | .error s => .error s
  | .ok (instrs, _) => .ok ⟨instrs⟩

/-! ## Interpreter (`Interpreter::run`) -/

/-- Fatal runtime conditions: `read_exact` failing on exhausted stdin, and
a Rust index-out-of-bounds panic on `self.stack[ps]`. -/
inductive RunErr where
  | inputExhausted
  | tapeIndexOutOfBounds
deriving DecidableEq, Repr

/-- Interpreter state: program counter `pc`, data pointer `ps`, the tape
(`self.stack`, `u8` cells as `Nat < 256`), remaining input bytes, and the
bytes written so far. -/
structure St where
  pc : Nat
  ps : Nat
  tape : List Nat
  inp : List Nat
  out : List Nat
deriving DecidableEq, Repr

/-- Result of one loop iteration. -/
inductive StepRes where
  | halt (st : St)
  | next (st : St)
  | fail (e : RunErr) (st : St)
deriving DecidableEq, Repr

/-- One iteration of the interpreter loop: break when `pc` runs off the
end, otherwise execute `code.instrs[pc]` and apply the uniform `pc += 1`.
`SHL` only special-cases `ps == 0`; otherwise the `usize` subtraction
wraps modulo `2 ^ 64`. `SHR` grows the tape with zero cells up to the new
pointer. Cell reads at an out-of-range pointer are the Rust panic,
modelled as `.fail .tapeIndexOutOfBounds`. -/
def step (code : List IR) (st : St) : StepRes :=
  match code[st.pc]? with
  | none => .halt st
  | some ir =>
    match ir with
    | .SHL x =>
        .next { st with pc := st.pc + 1,
                        ps := if st.ps = 0 then 0
                              else (st.ps + (USIZE - x % USIZE)) % USIZE }
    | .SHR x =>
        let ps' := (st.ps + x) % USIZE
        .next { st with pc := st.pc + 1, ps := ps',
                        tape := if st.tape.length ≤ ps' then
                                  st.tape ++ List.replicate (ps' + 1 - st.tape.length) 0
                                else st.tape }
    | .ADD x =>
        match st.tape[st.ps]? with
        | none => .fail .tapeIndexOutOfBounds st
        | some v => .next { st with pc := st.pc + 1,
                                    tape := st.tape.set st.ps ((v + x) % U8) }
    | .SUB x =>
        match st.tape[st.ps]? with
        | none => .fail .tapeIndexOutOfBounds st
        | some v => .next { st with pc := st.pc + 1,
                                    tape := st.tape.set st.ps ((v + (U8 - x % U8)) % U8) }
    | .PUTCHAR =>
        match st.tape[st.ps]? with
        | none => .fail .tapeIndexOutOfBounds st
        | some v => .next { st with pc := st.pc + 1, out := st.out ++ [v] }
    | .GETCHAR =>
        match st.inp with
        | [] => .fail .inputExhausted st
        | b :: rest =>
          match st.tape[st.ps]? with
          | none => .fail .tapeIndexOutOfBounds st
          | some _ => .next { st with pc := st.pc + 1,
                                      tape := st.tape.set st.ps (b % U8), inp := rest }
    | .JIZ x =>
        match st.tape[st.ps]? with
        | none => .fail .tapeIndexOutOfBounds st
        | some v => .next { st with pc := (if v = 0 then x else st.pc) + 1 }
    | .JNZ x =>
        match st.tape[st.ps]? with
        | none => .fail .tapeIndexOutOfBounds st
        | some v => .next { st with pc := (if v ≠ 0 then x else st.pc) + 1 }

/-- Outcome of running `fuel` iterations of the interpreter loop. -/
inductive RunRes where
  | halted (st : St)
  | failed (e : RunErr) (st : St)
  | fuelOut (st : St)
deriving DecidableEq, Repr

/-- Fuelled interpreter loop. The Rust loop has no fuel; running out of
fuel (`fuelOut`) just exposes the state reached after that many
iterations. -/
def run (code : List IR) : Nat → St → RunRes
  | 0, st => .fuelOut st
  | fuel + 1, st =>
    match step code st with
    | .halt s => .halted s
    | .fail e s => .failed e s
    | .next s => run code fuel s

/-- Initial interpreter state over a given tape and input
(`Interpreter::new` uses tape `[0]`). -/
def initSt (tape inp : List Nat) : St :=
  { pc := 0, ps := 0, tape := tape, inp := inp, out := [] }

/-- `true` iff the instruction about to execute is a `JIZ` while the
current cell reads zero, i.e. the state is about to take a `JumpIfZero`
jump. -/
def jizOnZero (code : List IR) (st : St) : Bool :=
  match code[st.pc]? with
  | some (IR.JIZ _) => st.tape[st.ps]? == some 0
  | _ => false

/-- Number of occurrences of an opcode in a list. -/
def countOp (o : Opcode) : List Opcode → Nat
  | [] => 0
  | e :: rest => (if e = o then 1 else 0) + countOp o rest

/-- The invariant `Code::from`'s loop state maintains. The pending-loop
stack is strictly decreasing from its head (the most recently pushed
index is the largest); every pending index holds the placeholder
`JIZ 0`; every `JIZ` not on the stack and every `JNZ` is half of a
mutually-targeted pair with the `JIZ` first; matched pairs never enclose
a pending open bracket; and matched pairs are non-crossing. -/
structure CInv (instrs : List IR) (jstack : List Nat) : Prop where
  stk_sorted : jstack.Pairwise (fun a b => b < a)
  stk_mem : ∀ j ∈ jstack, instrs[j]? = some (IR.JIZ 0)
  jiz_matched : ∀ i t, instrs[i]? = some (IR.JIZ t) → i ∉ jstack →
    i < t ∧ instrs[t]? = some (IR.JNZ i)
  jnz_matched : ∀ j t, instrs[j]? = some (IR.JNZ t) →
    t < j ∧ instrs[t]? = some (IR.JIZ j)
  no_open_inside : ∀ o ∈ jstack, ∀ i t, instrs[i]? = some (IR.JIZ t) →
    i ∉ jstack → t < o ∨ o < i
  noncross : ∀ i t i' t', instrs[i]? = some (IR.JIZ t) → i ∉ jstack →
    instrs[i']? = some (IR.JIZ t') → i' ∉ jstack → i < i' →
    t < i' ∨ t' < t

/-! ## Helper lemmas on list indexing -/

theorem lt_length_of_getElem?_eq_some {α : Type} {l : List α} {i : Nat} {a : α}
    (h : l[i]? = some a) : i < l.length := by
  rcases List.getElem?_eq_some_iff.1 h with ⟨h', _⟩
  exact h'

theorem getElem?_concat' {α : Type} (l : List α) (v : α) (i : Nat) :
    (l ++ [v])[i]? =
      if i < l.length then l[i]? else if i = l.length then some v else none := by
  split
  next h => exact List.getElem?_append_left h
  next h =>
    split
    next he => subst he; exact List.getElem?_concat_length l v
    next hne =>
      apply List.getElem?_eq_none
      simp only [List.length_append, List.length_cons, List.length_nil]
      omega

theorem concat_nonjump_iff {instrs : List IR} (v w : IR) (hv : v ≠ w) (i : Nat) :
    (instrs ++ [v])[i]? = some w ↔ instrs[i]? = some w := by
  rw [getElem?_concat']
  split
  next => exact Iff.rfl
  next hge =>
    have hnone : instrs[i]? = none := List.getElem?_eq_none (by omega)
    rw [hnone]
    split
    next => simp [hv]
    next => simp

theorem merge_nonjump_iff {init : List IR} (v v' w : IR)
    (hv : v ≠ w) (hv' : v' ≠ w) (i : Nat) :
    (init ++ [v])[i]? = some w ↔ (init ++ [v'])[i]? = some w := by
  rw [concat_nonjump_iff v w hv, concat_nonjump_iff v' w hv']

/-! ## The jump-structure invariant of the compilation loop -/


theorem cinv_nil : CInv [] [] := by
  constructor <;> simp

theorem CInv.congr {instrs instrs' : List IR} {js : List Nat}
    (h : CInv instrs js)
    (hjiz : ∀ i t : Nat, instrs[i]? = some (IR.JIZ t) ↔ instrs'[i]? = some (IR.JIZ t))
    (hjnz : ∀ i t : Nat, instrs[i]? = some (IR.JNZ t) ↔ instrs'[i]? = some (IR.JNZ t)) :
    CInv instrs' js where
  stk_sorted := h.stk_sorted
  stk_mem j hj := (hjiz j 0).1 (h.stk_mem j hj)
  jiz_matched i t hi hni :=
    let h' := h.jiz_matched i t ((hjiz i t).2 hi) hni
    ⟨h'.1, (hjnz t i).1 h'.2⟩
  jnz_matched j t hj :=
    let h' := h.jnz_matched j t ((hjnz j t).2 hj)
    ⟨h'.1, (hjiz t j).1 h'.2⟩
  no_open_inside o ho i t hi hni :=
    h.no_open_inside o ho i t ((hjiz i t).2 hi) hni
  noncross i t i' t' hi hni hi' hni' hlt :=
    h.noncross i t i' t' ((hjiz i t).2 hi) hni ((hjiz i' t').2 hi') hni' hlt

theorem CInv.append_nonjump {instrs : List IR} {js : List Nat} (h : CInv instrs js)
    (v : IR) (hv1 : ∀ t, v ≠ .JIZ t) (hv2 : ∀ t, v ≠ .JNZ t) :
    CInv (instrs ++ [v]) js :=
  h.congr (fun i t => (concat_nonjump_iff v _ (hv1 t) i).symm)
          (fun i t => (concat_nonjump_iff v _ (hv2 t) i).symm)

theorem CInv.merge_last {init : List IR} {js : List Nat} {v v' : IR}
    (h : CInv (init ++ [v]) js)
    (hv1 : ∀ t, v ≠ .JIZ t) (hv2 : ∀ t, v ≠ .JNZ t)
    (hv'1 : ∀ t, v' ≠ .JIZ t) (hv'2 : ∀ t, v' ≠ .JNZ t) :
    CInv (init ++ [v']) js :=
  h.congr (fun i t => merge_nonjump_iff v v' _ (hv1 t) (hv'1 t) i)
          (fun i t => merge_nonjump_iff v v' _ (hv2 t) (hv'2 t) i)

theorem CInv.step_merge {instrs : List IR} {js : List Nat} (h : CInv instrs js)
    {v : IR} (v' : IR) (hL : instrs.getLast? = some v)
    (hv1 : ∀ t, v ≠ .JIZ t) (hv2 : ∀ t, v ≠ .JNZ t)
    (hv'1 : ∀ t, v' ≠ .JIZ t) (hv'2 : ∀ t, v' ≠ .JNZ t) :
    CInv (instrs.dropLast ++ [v']) js := by
  obtain ⟨ys, rfl⟩ := List.getLast?_eq_some_iff.1 hL
  rw [List.dropLast_concat]
  exact (h.merge_last hv1 hv2 hv'1 hv'2)

theorem CInv.push_lb {instrs : List IR} {js : List Nat} (h : CInv instrs js) :
    CInv (instrs ++ [.JIZ 0]) (instrs.length :: js) := by
  have hmem : ∀ j ∈ js, j < instrs.length :=
    fun j hj => lt_length_of_getElem?_eq_some (h.stk_mem j hj)
  have key : ∀ i : Nat, (instrs ++ [IR.JIZ 0])[i]? =
      if i < instrs.length then instrs[i]?
      else if i = instrs.length then some (IR.JIZ 0) else none :=
    fun i => getElem?_concat' instrs (IR.JIZ 0) i
  constructor
  · exact List.pairwise_cons.2 ⟨hmem, h.stk_sorted⟩
  · intro j hj
    rcases List.mem_cons.1 hj with rfl | hj'
    · rw [key, if_neg (Nat.lt_irrefl _), if_pos rfl]
    · rw [key, if_pos (hmem j hj')]
      exact h.stk_mem j hj'
  · intro i t hi hni
    have hine : i ≠ instrs.length := fun he => hni (he ▸ List.mem_cons_self _ _)
    have hlt : i < instrs.length := by
      by_contra hge
      rw [key, if_neg hge, if_neg hine] at hi
      cases hi
    rw [key, if_pos hlt] at hi
    have hni' : i ∉ js := fun hin => hni (List.mem_cons_of_mem _ hin)
    obtain ⟨h1, h2⟩ := h.jiz_matched i t hi hni'
    have ht : t < instrs.length := lt_length_of_getElem?_eq_some h2
    exact ⟨h1, by rw [key, if_pos ht]; exact h2⟩
  · intro j t hj
    have hlt : j < instrs.length := by
      by_contra hge
      rcases Nat.eq_or_lt_of_le (Nat.le_of_not_lt hge) with he | hgt
      · rw [key, if_neg hge, if_pos he.symm] at hj
        cases hj
      · rw [key, if_neg hge, if_neg (by omega)] at hj
        cases hj
    rw [key, if_pos hlt] at hj
    obtain ⟨h1, h2⟩ := h.jnz_matched j t hj
    have ht : t < instrs.length := lt_length_of_getElem?_eq_some h2
    exact ⟨h1, by rw [key, if_pos ht]; exact h2⟩
  · intro o ho i t hi hni
    have hine : i ≠ instrs.length := fun he => hni (he ▸ List.mem_cons_self _ _)
    have hlt : i < instrs.length := by
      by_contra hge
      rw [key, if_neg hge, if_neg hine] at hi
      cases hi
    rw [key, if_pos hlt] at hi
    have hni' : i ∉ js := fun hin => hni (List.mem_cons_of_mem _ hin)
    rcases List.mem_cons.1 ho with rfl | ho'
    · left
      obtain ⟨_, h2⟩ := h.jiz_matched i t hi hni'
      exact lt_length_of_getElem?_eq_some h2
    · exact h.no_open_inside o ho' i t hi hni'
  · intro i t i' t' hi hni hi' hni' hii
    have hine : i ≠ instrs.length := fun he => hni (he ▸ List.mem_cons_self _ _)
    have hlt : i < instrs.length := by
      by_contra hge
      rw [key, if_neg hge, if_neg hine] at hi
      cases hi
    have hine' : i' ≠ instrs.length := fun he => hni' (he ▸ List.mem_cons_self _ _)
    have hlt' : i' < instrs.length := by
      by_contra hge
      rw [key, if_neg hge, if_neg hine'] at hi'
      cases hi'
    rw [key, if_pos hlt] at hi
    rw [key, if_pos hlt'] at hi'
    exact h.noncross i t i' t' hi (fun hin => hni (List.mem_cons_of_mem _ hin))
      hi' (fun hin => hni' (List.mem_cons_of_mem _ hin)) hii

theorem CInv.pop_rb {instrs : List IR} {j : Nat} {rest : List Nat}
    (h : CInv instrs (j :: rest)) :
    CInv ((instrs ++ [IR.JNZ j]).set j (IR.JIZ instrs.length)) rest := by
  have hj0 : instrs[j]? = some (IR.JIZ 0) := h.stk_mem j (List.mem_cons_self _ _)
  have hjlt : j < instrs.length := lt_length_of_getElem?_eq_some hj0
  have hrest_lt : ∀ x ∈ rest, x < j :=
    fun x hx => (List.pairwise_cons.1 h.stk_sorted).1 x hx
  have key : ∀ i : Nat, ((instrs ++ [IR.JNZ j]).set j (IR.JIZ instrs.length))[i]? =
      if i = j then some (IR.JIZ instrs.length)
      else if i < instrs.length then instrs[i]?
      else if i = instrs.length then some (IR.JNZ j) else none := by
    intro i
    rw [List.getElem?_set]
    split
    next he =>
      subst he
      rw [if_pos rfl, if_pos (by simp; omega)]
    next hne =>
      rw [if_neg (fun he => hne he.symm), getElem?_concat']
  -- a matched JIZ of the old list, extracted from the new list
  have old_jiz : ∀ i t : Nat, i ≠ j →
      ((instrs ++ [IR.JNZ j]).set j (IR.JIZ instrs.length))[i]? = some (IR.JIZ t) →
      instrs[i]? = some (IR.JIZ t) ∧ i < instrs.length := by
    intro i t hne hi
    rw [key, if_neg hne] at hi
    by_cases hlt : i < instrs.length
    · rw [if_pos hlt] at hi
      exact ⟨hi, hlt⟩
    · rw [if_neg hlt] at hi
      split at hi <;> cases hi
  constructor
  · exact (List.pairwise_cons.1 h.stk_sorted).2
  · intro x hx
    have hxj : x < j := hrest_lt x hx
    rw [key, if_neg (Nat.ne_of_lt hxj), if_pos (by omega)]
    exact h.stk_mem x (List.mem_cons_of_mem _ hx)
  · intro i t hi hni
    by_cases hij : i = j
    · subst hij
      rw [key, if_pos rfl] at hi
      cases hi
      refine ⟨hjlt, ?_⟩
      rw [key, if_neg (by omega), if_neg (by omega), if_pos rfl]
    · obtain ⟨hi', hlt⟩ := old_jiz i t hij hi
      have hni' : i ∉ j :: rest := by
        intro hin
        rcases List.mem_cons.1 hin with rfl | hin'
        · exact hij rfl
        · exact hni hin'
      obtain ⟨h1, h2⟩ := h.jiz_matched i t hi' hni'
      have ht : t < instrs.length := lt_length_of_getElem?_eq_some h2
      have htj : t ≠ j := by
        intro he
        rw [he, hj0] at h2
        cases h2
      exact ⟨h1, by rw [key, if_neg htj, if_pos ht]; exact h2⟩
  · intro j' t hj'
    by_cases hj'j : j' = j
    · subst hj'j
      rw [key, if_pos rfl] at hj'
      cases hj'
    · rw [key, if_neg hj'j] at hj'
      by_cases hlt : j' < instrs.length
      · rw [if_pos hlt] at hj'
        obtain ⟨h1, h2⟩ := h.jnz_matched j' t hj'
        have ht : t < instrs.length := lt_length_of_getElem?_eq_some h2
        have htj : t ≠ j := by
          intro he
          rw [he, hj0] at h2
          cases h2
          omega
        exact ⟨h1, by rw [key, if_neg htj, if_pos ht]; exact h2⟩
      · rw [if_neg hlt] at hj'
        split at hj'
        next he =>
          cases hj'
          subst he
          exact ⟨hjlt, by rw [key, if_pos rfl]⟩
        next => cases hj'
  · intro o ho i t hi hni
    have hoj : o < j := hrest_lt o ho
    by_cases hij : i = j
    · subst hij
      right
      exact hoj
    · obtain ⟨hi', _⟩ := old_jiz i t hij hi
      have hni' : i ∉ j :: rest := by
        intro hin
        rcases List.mem_cons.1 hin with rfl | hin'
        · exact hij rfl
        · exact hni hin'
      exact h.no_open_inside o (List.mem_cons_of_mem _ ho) i t hi' hni'
  · intro i t i' t' hi hni hi' hni' hii
    by_cases hij : i = j
    · subst hij
      -- the new pair (j, n) comes first; the other pair is old and its
      -- target is below n
      rw [key, if_pos rfl] at hi
      cases hi
      right
      have hi'j : i' ≠ i := by omega
      obtain ⟨ho', _⟩ := old_jiz i' t' hi'j hi'
      have hni'' : i' ∉ i :: rest := by
        intro hin
        rcases List.mem_cons.1 hin with rfl | hin'
        · exact hi'j rfl
        · exact hni' hin'
      obtain ⟨_, h2⟩ := h.jiz_matched i' t' ho' hni''
      exact lt_length_of_getElem?_eq_some h2
    · obtain ⟨hiold, _⟩ := old_jiz i t hij hi
      have hnii : i ∉ j :: rest := by
        intro hin
        rcases List.mem_cons.1 hin with rfl | hin'
        · exact hij rfl
        · exact hni hin'
      by_cases hi'j : i' = j
      · subst hi'j
        -- the old pair (i, t) sits left of the open bracket i' = j, so
        -- its target is also left of it
        obtain ht := h.no_open_inside i' (List.mem_cons_self _ _) i t hiold hnii
        left
        omega
      · obtain ⟨hi'old, _⟩ := old_jiz i' t' hi'j hi'
        have hnii' : i' ∉ j :: rest := by
          intro hin
          rcases List.mem_cons.1 hin with rfl | hin'
          · exact hi'j rfl
          · exact hni' hin'
        exact h.noncross i t i' t' hiold hnii hi'old hnii' hii

theorem compileStep_rb_ok {instrs : List IR} {j : Nat} {rest : List Nat}
    (hj0 : instrs[j]? = some (IR.JIZ 0)) :
    compileStep (instrs, j :: rest) .RB =
      .ok ((instrs ++ [IR.JNZ j]).set j (IR.JIZ instrs.length), rest) := by
  have hjlt : j < instrs.length := lt_length_of_getElem?_eq_some hj0
  have hx : (instrs ++ [IR.JNZ j])[j]? = some (IR.JIZ 0) := by
    rw [List.getElem?_append_left hjlt]
    exact hj0
  simp [compileStep, hx]

theorem compileStep_nonloop_ok {instrs : List IR} {js : List Nat} (h : CInv instrs js)
    (e : Opcode) (he1 : e ≠ .LB) (he2 : e ≠ .RB) :
    ∃ instrs', compileStep (instrs, js) e = .ok (instrs', js) ∧ CInv instrs' js := by
  cases e
  case LB => exact absurd rfl he1
  case RB => exact absurd rfl he2
  case SHR =>
    simp only [compileStep]
    split
    next hL =>
      exact ⟨_, rfl, h.step_merge _ hL (fun _ hc => IR.noConfusion hc)
        (fun _ hc => IR.noConfusion hc) (fun _ hc => IR.noConfusion hc)
        (fun _ hc => IR.noConfusion hc)⟩
    next hL =>
      exact ⟨_, rfl, h.append_nonjump _ (fun _ hc => IR.noConfusion hc)
        (fun _ hc => IR.noConfusion hc)⟩
  case SHL =>
    simp only [compileStep]
    split
    next hL =>
      exact ⟨_, rfl, h.step_merge _ hL (fun _ hc => IR.noConfusion hc)
        (fun _ hc => IR.noConfusion hc) (fun _ hc => IR.noConfusion hc)
        (fun _ hc => IR.noConfusion hc)⟩
    next hL =>
      exact ⟨_, rfl, h.append_nonjump _ (fun _ hc => IR.noConfusion hc)
        (fun _ hc => IR.noConfusion hc)⟩
  case ADD =>
    simp only [compileStep]
    split
    next hL =>
      exact ⟨_, rfl, h.step_merge _ hL (fun _ hc => IR.noConfusion hc)
        (fun _ hc => IR.noConfusion hc) (fun _ hc => IR.noConfusion hc)
        (fun _ hc => IR.noConfusion hc)⟩
    next hL =>
      exact ⟨_, rfl, h.append_nonjump _ (fun _ hc => IR.noConfusion hc)
        (fun _ hc => IR.noConfusion hc)⟩
  case SUB =>
    simp only [compileStep]
    split
    next hL =>
      exact ⟨_, rfl, h.step_merge _ hL (fun _ hc => IR.noConfusion hc)
        (fun _ hc => IR.noConfusion hc) (fun _ hc => IR.noConfusion hc)
        (fun _ hc => IR.noConfusion hc)⟩
    next hL =>
      exact ⟨_, rfl, h.append_nonjump _ (fun _ hc => IR.noConfusion hc)
        (fun _ hc => IR.noConfusion hc)⟩
  case PUTCHAR =>
    exact ⟨_, rfl, h.append_nonjump _ (fun _ hc => IR.noConfusion hc)
      (fun _ hc => IR.noConfusion hc)⟩
  case GETCHAR =>
    exact ⟨_, rfl, h.append_nonjump _ (fun _ hc => IR.noConfusion hc)
      (fun _ hc => IR.noConfusion hc)⟩

/-! ## Counting opcodes -/


theorem countOp_nil (o : Opcode) : countOp o [] = 0 := rfl

theorem countOp_cons (o e : Opcode) (l : List Opcode) :
    countOp o (e :: l) = (if e = o then 1 else 0) + countOp o l := rfl

theorem countOp_cons_ne {o e : Opcode} (h : e ≠ o) (l : List Opcode) :
    countOp o (e :: l) = countOp o l := by
  rw [countOp_cons, if_neg h, Nat.zero_add]

theorem countOp_cons_self (o : Opcode) (l : List Opcode) :
    countOp o (o :: l) = 1 + countOp o l := by
  rw [countOp_cons, if_pos rfl]

/-- Running the compilation loop never fails and preserves the jump
invariant as long as every prefix of the remaining input closes at most
as many loops as are open or opened: the final stack height is the
initial one plus open minus close counts. -/
theorem fromAux_ok (ops : List Opcode) :
    ∀ (instrs : List IR) (js : List Nat), CInv instrs js →
    (∀ k : Nat, countOp .RB (ops.take k) ≤ js.length + countOp .LB (ops.take k)) →
    ∃ instrs' js', fromAux ops (instrs, js) = .ok (instrs', js') ∧
      CInv instrs' js' ∧
      js'.length + countOp .RB ops = js.length + countOp .LB ops := by
  induction ops with
  | nil =>
    intro instrs js h _
    exact ⟨instrs, js, rfl, h, by simp [countOp]⟩
  | cons e rest ih =>
    intro instrs js h hbal
    by_cases heLB : e = .LB
    · subst heLB
      obtain ⟨instrs', js', hrun, hinv, hlen⟩ :=
        ih (instrs ++ [.JIZ 0]) (instrs.length :: js) h.push_lb (fun k => by
          have h1 := hbal (k + 1)
          rw [List.take_succ_cons, countOp_cons_ne (by intro hc; cases hc),
            countOp_cons_self] at h1
          simp only [List.length_cons]
          omega)
      refine ⟨instrs', js', ?_, hinv, ?_⟩
      · simpa only [fromAux, compileStep] using hrun
      · rw [countOp_cons_ne (by intro hc; cases hc), countOp_cons_self]
        simp only [List.length_cons] at hlen
        omega
    by_cases heRB : e = .RB
    · subst heRB
      have hpos : 1 ≤ js.length := by
        have h1 := hbal 1
        rw [List.take_succ_cons, List.take_zero, countOp_cons_self,
          countOp_cons_ne (show Opcode.RB ≠ Opcode.LB by intro hc; cases hc)] at h1
        simp only [countOp_nil] at h1
        omega
      match js, hpos with
      | j :: rest', _ =>
        have hj0 : instrs[j]? = some (IR.JIZ 0) := h.stk_mem j (List.mem_cons_self _ _)
        obtain ⟨instrs', js', hrun, hinv, hlen⟩ :=
          ih ((instrs ++ [IR.JNZ j]).set j (IR.JIZ instrs.length)) rest' h.pop_rb
            (fun k => by
              have h1 := hbal (k + 1)
              rw [List.take_succ_cons, countOp_cons_self,
                countOp_cons_ne (by intro hc; cases hc)] at h1
              simp only [List.length_cons] at h1
              omega)
        refine ⟨instrs', js', ?_, hinv, ?_⟩
        · rw [fromAux, compileStep_rb_ok hj0]
          exact hrun
        · rw [countOp_cons_self, countOp_cons_ne (by intro hc; cases hc)]
          simp only [List.length_cons]
          omega
    · obtain ⟨instrs1, hstep, hinv1⟩ := compileStep_nonloop_ok h e heLB heRB
      obtain ⟨instrs', js', hrun, hinv, hlen⟩ := ih instrs1 js hinv1 (fun k => by
        have h1 := hbal (k + 1)
        rw [List.take_succ_cons, countOp_cons_ne heRB, countOp_cons_ne heLB] at h1
        exact h1)
      refine ⟨instrs', js', ?_, hinv, ?_⟩
      · rw [fromAux, hstep]
        exact hrun
      · rw [countOp_cons_ne heRB, countOp_cons_ne heLB]
        exact hlen

/-- If some loop-end in the input arrives when the stack has already been
exhausted — the close count of the prefix before it reaches the stack
height plus the open count — the compilation loop fails with the
pop-from-empty error. -/
theorem fromAux_err (ops : List Opcode) :
    ∀ (instrs : List IR) (js : List Nat), CInv instrs js →
    (∃ k : Nat, ops[k]? = some .RB ∧
      js.length + countOp .LB (ops.take k) ≤ countOp .RB (ops.take k)) →
    fromAux ops (instrs, js) = .error "pop from empty list" := by
  induction ops with
  | nil =>
    rintro instrs js h ⟨k, hk, _⟩
    simp at hk
  | cons e rest ih =>
    rintro instrs js h ⟨k, hk, hcnt⟩
    cases k with
    | zero =>
      have he : e = .RB := by
        simp only [List.getElem?_cons_zero] at hk
        cases hk
        rfl
      subst he
      have hjs : js = [] := by
        rw [List.take_zero] at hcnt
        simp only [countOp_nil] at hcnt
        cases js with
        | nil => rfl
        | cons a l => simp at hcnt
      subst hjs
      rw [fromAux, compileStep]
    | succ k =>
      rw [List.getElem?_cons_succ] at hk
      rw [List.take_succ_cons] at hcnt
      by_cases heLB : e = .LB
      · subst heLB
        rw [countOp_cons_self, countOp_cons_ne (by intro hc; cases hc)] at hcnt
        have hrun := ih (instrs ++ [.JIZ 0]) (instrs.length :: js) h.push_lb
          ⟨k, hk, by simp only [List.length_cons]; omega⟩
        simpa only [fromAux, compileStep] using hrun
      by_cases heRB : e = .RB
      · subst heRB
        rw [countOp_cons_self, countOp_cons_ne (by intro hc; cases hc)] at hcnt
        cases js with
        | nil => rw [fromAux, compileStep]
        | cons j rest' =>
          have hj0 : instrs[j]? = some (IR.JIZ 0) := h.stk_mem j (List.mem_cons_self _ _)
          have hrun := ih ((instrs ++ [IR.JNZ j]).set j (IR.JIZ instrs.length)) rest'
            h.pop_rb ⟨k, hk, by simp only [List.length_cons] at hcnt; omega⟩
          rw [fromAux, compileStep_rb_ok hj0]
          exact hrun
      · obtain ⟨instrs1, hstep, hinv1⟩ := compileStep_nonloop_ok h e heLB heRB
        rw [countOp_cons_ne heRB, countOp_cons_ne heLB] at hcnt
        have hrun := ih instrs1 js hinv1 ⟨k, hk, hcnt⟩
        rw [fromAux, hstep]
        exact hrun

/-- C2: for every symbol sequence with balanced loop brackets (no prefix
closes more loops than it opens, and the totals agree), `Code::from`
succeeds, and in the result every `JIZ` at index `i` targets an index
`t > i` holding a `JNZ` whose own target is `i`, every `JNZ` at index `j`
targets a `JIZ` at `t < j` whose target is `j` (so the pairing is a
perfect mutual matching), and distinct pairs are non-crossing (nested or
disjoint). -/
theorem balanced_compiles_matched_noncrossing (ops : List Opcode)
    (hpre : ∀ k : Nat, k ≤ ops.length →
      countOp .RB (ops.take k) ≤ countOp .LB (ops.take k))
    (hbal : countOp .RB ops = countOp .LB ops) :
    ∃ code : Code, Code.fromOps ops = .ok code ∧
      (∀ i t : Nat, code.instrs[i]? = some (IR.JIZ t) →
        i < t ∧ code.instrs[t]? = some (IR.JNZ i)) ∧
      (∀ j t : Nat, code.instrs[j]? = some (IR.JNZ t) →
        t < j ∧ code.instrs[t]? = some (IR.JIZ j)) ∧
      (∀ i t i' t' : Nat, code.instrs[i]? = some (IR.JIZ t) →
        code.instrs[i']? = some (IR.JIZ t') → i < i' → t < i' ∨ t' < t) := by
  have hpre' : ∀ k : Nat, countOp .RB (ops.take k) ≤
      ([] : List Nat).length + countOp .LB (ops.take k) := by
    intro k
    simp only [List.length_nil, Nat.zero_add]
    by_cases hk : k ≤ ops.length
    · exact hpre k hk
    · rw [List.take_of_length_le (by omega)]
      omega
  obtain ⟨instrs', js', hrun, hinv, hlen⟩ := fromAux_ok ops [] [] cinv_nil hpre'
  have hjs : js' = [] := by
    simp only [List.length_nil, Nat.zero_add] at hlen
    have hz : js'.length = 0 := by omega
    exact List.length_eq_zero.1 hz
  subst hjs
  refine ⟨⟨instrs'⟩, ?_, ?_, ?_, ?_⟩
  · simp only [Code.fromOps, hrun]
  · intro i t hi
    exact hinv.jiz_matched i t hi (by simp)
  · intro j t hj
    exact hinv.jnz_matched j t hj
  · intro i t i' t' hi hi' hii
    exact hinv.noncross i t i' t' hi (by simp) hi' (by simp) hii

/-- C2 witness: the concrete balanced program `[[]]` compiles with the
matched non-crossing jump structure. -/
theorem balanced_compiles_matched_noncrossing_witness :
    ∃ code : Code, Code.fromOps [.LB, .LB, .RB, .RB] = .ok code ∧
      (∀ i t : Nat, code.instrs[i]? = some (IR.JIZ t) →
        i < t ∧ code.instrs[t]? = some (IR.JNZ i)) ∧
      (∀ j t : Nat, code.instrs[j]? = some (IR.JNZ t) →
        t < j ∧ code.instrs[t]? = some (IR.JIZ j)) ∧
      (∀ i t i' t' : Nat, code.instrs[i]? = some (IR.JIZ t) →
        code.instrs[i']? = some (IR.JIZ t') → i < i' → t < i' ∨ t' < t) :=
  balanced_compiles_matched_noncrossing [.LB, .LB, .RB, .RB] (by decide) (by decide)

/-- C5: any symbol sequence containing a loop-end at position `k` whose
preceding prefix has no outstanding open loop (open count ≤ close count)
makes `Code::from` fail with the pop-from-empty error, producing no
instruction list. -/
theorem unmatched_rb_compile_fails (ops : List Opcode)
    (h : ∃ k : Nat, ops[k]? = some .RB ∧
      countOp .LB (ops.take k) ≤ countOp .RB (ops.take k)) :
    Code.fromOps ops = .error "pop from empty list" := by
  obtain ⟨k, hk, hcnt⟩ := h
  have herr := fromAux_err ops [] [] cinv_nil
    ⟨k, hk, by simpa using hcnt⟩
  simp only [Code.fromOps, herr]

/-- C5 witness: a lone loop-end fails to compile with the pop-from-empty
error. -/
theorem unmatched_rb_compile_fails_witness :
    Code.fromOps [.RB] = .error "pop from empty list" :=
  unmatched_rb_compile_fails [.RB] ⟨0, rfl, by decide⟩

/-- C6: a symbol sequence that never closes more loops than it opened but
ends with unmatched loop-starts compiles without error: `Code::from`
returns `Ok`, the pending-loop stack is non-empty at the end of the loop,
and every index still on it holds an un-back-patched `JIZ` with
placeholder target `0`. -/
theorem trailing_lb_compiles_ok_with_placeholder (ops : List Opcode)
    (hpre : ∀ k : Nat, k ≤ ops.length →
      countOp .RB (ops.take k) ≤ countOp .LB (ops.take k))
    (hend : countOp .RB ops < countOp .LB ops) :
    ∃ (instrs : List IR) (jstack : List Nat),
      fromAux ops ([], []) = .ok (instrs, jstack) ∧
      Code.fromOps ops = .ok ⟨instrs⟩ ∧
      jstack ≠ [] ∧
      ∀ j ∈ jstack, instrs[j]? = some (IR.JIZ 0) := by
  have hpre' : ∀ k : Nat, countOp .RB (ops.take k) ≤
      ([] : List Nat).length + countOp .LB (ops.take k) := by
    intro k
    simp only [List.length_nil, Nat.zero_add]
    by_cases hk : k ≤ ops.length
    · exact hpre k hk
    · rw [List.take_of_length_le (by omega)]
      omega
  obtain ⟨instrs', js', hrun, hinv, hlen⟩ := fromAux_ok ops [] [] cinv_nil hpre'
  refine ⟨instrs', js', hrun, ?_, ?_, hinv.stk_mem⟩
  · simp only [Code.fromOps, hrun]
  · intro hz
    subst hz
    simp only [List.length_nil, Nat.zero_add] at hlen
    omega

/-- C6 witness: a lone loop-start compiles to `Ok` with the placeholder
`JIZ 0` left on the pending stack. -/
theorem trailing_lb_compiles_ok_with_placeholder_witness :
    ∃ (instrs : List IR) (jstack : List Nat),
      fromAux [Opcode.LB] ([], []) = .ok (instrs, jstack) ∧
      Code.fromOps [Opcode.LB] = .ok ⟨instrs⟩ ∧
      jstack ≠ [] ∧
      ∀ j ∈ jstack, instrs[j]? = some (IR.JIZ 0) :=
  trailing_lb_compiles_ok_with_placeholder [.LB] (by decide) (by decide)

/-- Folding `k` further increment symbols onto a pending `ADD` whose count
is `m % 256` yields `ADD ((m + k) % 256)`: the `u8` count wraps at every
merge (`overflowing_add`). -/
theorem fromAux_replicate_add (k : Nat) : ∀ (m : Nat) (js : List Nat),
    fromAux (List.replicate k .ADD) ([.ADD (m % 256)], js) =
      .ok ([.ADD ((m + k) % 256)], js) := by
  induction k with
  | zero =>
    intro m js
    simp [fromAux]
  | succ k ih =>
    intro m js
    rw [List.replicate_succ]
    have harith : (m % 256 + 1) % 256 = (m + 1) % 256 := by omega
    have hstep : compileStep ([IR.ADD (m % 256)], js) .ADD =
        .ok ([IR.ADD ((m + 1) % 256)], js) := by
      simp [compileStep, U8, harith]
    rw [fromAux, hstep]
    have h2 := ih (m + 1) js
    have harith2 : m + 1 + k = m + (k + 1) := by omega
    rw [harith2] at h2
    exact h2

/-- Folding `k` further decrement symbols onto a pending `SUB` whose count
is `m % 256` yields `SUB ((m + k) % 256)`. -/
theorem fromAux_replicate_sub (k : Nat) : ∀ (m : Nat) (js : List Nat),
    fromAux (List.replicate k .SUB) ([.SUB (m % 256)], js) =
      .ok ([.SUB ((m + k) % 256)], js) := by
  induction k with
  | zero =>
    intro m js
    simp [fromAux]
  | succ k ih =>
    intro m js
    rw [List.replicate_succ]
    have harith : (m % 256 + 1) % 256 = (m + 1) % 256 := by omega
    have hstep : compileStep ([IR.SUB (m % 256)], js) .SUB =
        .ok ([IR.SUB ((m + 1) % 256)], js) := by
      simp [compileStep, U8, harith]
    rw [fromAux, hstep]
    have h2 := ih (m + 1) js
    have harith2 : m + 1 + k = m + (k + 1) := by omega
    rw [harith2] at h2
    exact h2

/-- C3: compiling `n ≥ 1` consecutive increment (resp. decrement) symbols
produces the single instruction `ADD (n % 256)` (resp. `SUB (n % 256)`):
the 8-bit repeat count wraps during the compaction merge itself. -/
theorem replicate_add_sub_merge_mod256 (n : Nat) (h : 1 ≤ n) :
    Code.fromOps (List.replicate n .ADD) = .ok ⟨[.ADD (n % 256)]⟩ ∧
    Code.fromOps (List.replicate n .SUB) = .ok ⟨[.SUB (n % 256)]⟩ := by
  obtain ⟨k, rfl⟩ : ∃ k, n = k + 1 := ⟨n - 1, by omega⟩
  constructor
  · have hmain : fromAux (List.replicate (k + 1) .ADD) ([], []) =
        .ok ([IR.ADD ((k + 1) % 256)], []) := by
      rw [List.replicate_succ, fromAux,
        (show compileStep (([] : List IR), ([] : List Nat)) .ADD =
          .ok ([IR.ADD 1], []) from rfl)]
      have h2 := fromAux_replicate_add k 1 []
      rw [show (1 : Nat) % 256 = 1 from rfl, show 1 + k = k + 1 by omega] at h2
      exact h2
    simp only [Code.fromOps, hmain]
  · have hmain : fromAux (List.replicate (k + 1) .SUB) ([], []) =
        .ok ([IR.SUB ((k + 1) % 256)], []) := by
      rw [List.replicate_succ, fromAux,
        (show compileStep (([] : List IR), ([] : List Nat)) .SUB =
          .ok ([IR.SUB 1], []) from rfl)]
      have h2 := fromAux_replicate_sub k 1 []
      rw [show (1 : Nat) % 256 = 1 from rfl, show 1 + k = k + 1 by omega] at h2
      exact h2
    simp only [Code.fromOps, hmain]

/-- C3 witness: 300 consecutive increments (resp. decrements) compile to
the single instruction with wrapped count `300 % 256 = 44`. -/
theorem replicate_add_sub_merge_mod256_witness :
    Code.fromOps (List.replicate 300 .ADD) = .ok ⟨[.ADD (300 % 256)]⟩ ∧
    Code.fromOps (List.replicate 300 .SUB) = .ok ⟨[.SUB (300 % 256)]⟩ :=
  replicate_add_sub_merge_mod256 300 (by omega)

/-- C9: run-length folding is a local peephole merge: the sequence
move-right, increment, move-right compiles to two separate `SHR 1`
instructions with an `ADD 1` between them, never a single `SHR 2`. -/
theorem interleaved_moves_do_not_merge :
    Code.fromOps [.SHR, .ADD, .SHR] = .ok ⟨[.SHR 1, .ADD 1, .SHR 1]⟩ := rfl

/-- C1: the claim that `MoveLeft(n)` always sets the pointer to
`max(0, p - n)` is false. At `ps = 1` with `SHL 2` the code takes the
`ps != 0` branch and the `usize` subtraction `1 - 2` wraps to
`2 ^ 64 - 1` instead of clamping to `0`; running the three-instruction
program compiled from `><<` followed by `+` then aborts with an
out-of-bounds tape access (the Rust index panic). Only `ps = 0` is
special-cased by the source. -/
theorem shl_underflow_wraps_not_clamped :
    step [IR.SHL 2] { pc := 0, ps := 1, tape := [0, 0], inp := [], out := [] } =
      .next { pc := 1, ps := 2 ^ 64 - 1, tape := [0, 0], inp := [], out := [] } ∧
    2 ^ 64 - 1 ≠ 0 ∧
    run [IR.SHR 1, IR.SHL 2, IR.ADD 1] 3 (initSt [0] []) =
      .failed .tapeIndexOutOfBounds
        { pc := 2, ps := 2 ^ 64 - 1, tape := [0, 0], inp := [], out := [] } :=
  ⟨by decide, by decide, by decide⟩

/-- C4 counterexample: for the program `+[-.]` run from a single cell of
value `1` (so the cell is `2` at loop entry), the run writes exactly the
bytes `[1, 0]` and halts, but at no point of the whole run is a `JIZ`
instruction reached while the current cell is zero — the loop is never
exited "via JumpIfZero when the cell reaches 0"; it is exited by the
final `JNZ` falling through. -/
theorem scenario2_loop_never_exits_via_jiz :
    Code.fromOps [.ADD, .LB, .SUB, .PUTCHAR, .RB] =
      .ok ⟨[.ADD 1, .JIZ 4, .SUB 1, .PUTCHAR, .JNZ 1]⟩ ∧
    run [IR.ADD 1, IR.JIZ 4, IR.SUB 1, IR.PUTCHAR, IR.JNZ 1] 9 (initSt [1] []) =
      .halted { pc := 5, ps := 0, tape := [0], inp := [], out := [1, 0] } ∧
    ((List.range 9).all fun k =>
      match run [IR.ADD 1, IR.JIZ 4, IR.SUB 1, IR.PUTCHAR, IR.JNZ 1] k (initSt [1] []) with
      | .fuelOut st =>
        !(jizOnZero [IR.ADD 1, IR.JIZ 4, IR.SUB 1, IR.PUTCHAR, IR.JNZ 1] st)
      | _ => true) = true :=
  ⟨rfl, by decide, by decide⟩

/-- C4 amended: the program `+[-.]` started from a single cell of value
`1` (cell = 2 at loop entry) writes exactly `[1, 0]` and terminates. The
taken `JNZ 1` lands execution at `pc = 2 = target + 1` (the uniform
post-instruction increment), and the loop exits when the `JNZ` at index 4
falls through on cell 0, the program counter running off the end. -/
theorem scenario2_outputs_one_zero_exits_via_jnz :
    Code.fromOps [.ADD, .LB, .SUB, .PUTCHAR, .RB] =
      .ok ⟨[.ADD 1, .JIZ 4, .SUB 1, .PUTCHAR, .JNZ 1]⟩ ∧
    run [IR.ADD 1, IR.JIZ 4, IR.SUB 1, IR.PUTCHAR, IR.JNZ 1] 5 (initSt [1] []) =
      .fuelOut { pc := 2, ps := 0, tape := [1], inp := [], out := [1] } ∧
    run [IR.ADD 1, IR.JIZ 4, IR.SUB 1, IR.PUTCHAR, IR.JNZ 1] 7 (initSt [1] []) =
      .fuelOut { pc := 4, ps := 0, tape := [0], inp := [], out := [1, 0] } ∧
    run [IR.ADD 1, IR.JIZ 4, IR.SUB 1, IR.PUTCHAR, IR.JNZ 1] 9 (initSt [1] []) =
      .halted { pc := 5, ps := 0, tape := [0], inp := [], out := [1, 0] } :=
  ⟨rfl, by decide, by decide, by decide⟩

/-- C7: executing `SHR x` never fails; the new pointer is
`(ps + x) % 2 ^ 64` and afterwards the tape length is at least the new
pointer plus one, the tape has not shrunk, existing cells are unchanged
and every newly created cell is zero. -/
theorem shr_grows_tape_zero_filled (code : List IR) (st : St) (x : Nat)
    (h : code[st.pc]? = some (IR.SHR x)) :
    ∃ tape' : List Nat,
      step code st = .next { st with pc := st.pc + 1,
                                     ps := (st.ps + x) % USIZE,
                                     tape := tape' } ∧
      (st.ps + x) % USIZE + 1 ≤ tape'.length ∧
      st.tape.length ≤ tape'.length ∧
      (∀ i : Nat, i < st.tape.length → tape'[i]? = st.tape[i]?) ∧
      (∀ i : Nat, st.tape.length ≤ i → i < tape'.length → tape'[i]? = some 0) := by
  have hstep : step code st =
      .next { st with pc := st.pc + 1,
                      ps := (st.ps + x) % USIZE,
                      tape := if st.tape.length ≤ (st.ps + x) % USIZE then
                        st.tape ++
                          List.replicate ((st.ps + x) % USIZE + 1 - st.tape.length) 0
                      else st.tape } := by
    simp only [step, h]
  refine ⟨_, hstep, ?_, ?_, ?_, ?_⟩
  · split
    next hle => simp only [List.length_append, List.length_replicate]; omega
    next hgt => omega
  · split
    next hle => simp only [List.length_append, List.length_replicate]; omega
    next hgt => omega
  · intro i hi
    split
    next hle => exact List.getElem?_append_left hi
    next hgt => rfl
  · intro i h1 h2
    by_cases hle : st.tape.length ≤ (st.ps + x) % USIZE
    · rw [if_pos hle] at h2 ⊢
      rw [List.length_append, List.length_replicate] at h2
      rw [List.getElem?_append_right h1, List.getElem?_replicate,
        if_pos (by omega)]
    · rw [if_neg hle] at h2
      exact absurd (Nat.lt_of_lt_of_le h2 h1) (Nat.lt_irrefl i)

/-- C7 witness: `SHR 3` from the one-cell initial tape grows the tape to
four zero cells with the pointer at 3. -/
theorem shr_grows_tape_zero_filled_witness :
    ∃ tape' : List Nat,
      step [IR.SHR 3] (initSt [0] []) =
        .next { initSt [0] [] with pc := 0 + 1,
                                   ps := (0 + 3) % USIZE,
                                   tape := tape' } ∧
      (0 + 3) % USIZE + 1 ≤ tape'.length ∧
      (initSt [0] []).tape.length ≤ tape'.length ∧
      (∀ i : Nat, i < (initSt [0] []).tape.length →
        tape'[i]? = (initSt [0] []).tape[i]?) ∧
      (∀ i : Nat, (initSt [0] []).tape.length ≤ i → i < tape'.length →
        tape'[i]? = some 0) :=
  shr_grows_tape_zero_filled [IR.SHR 3] (initSt [0] []) 3 rfl

/-- C8: when a `GETCHAR` is reached with the input stream exhausted, the
iteration fails with `inputExhausted` and the whole run (any positive
fuel) terminates with that error in exactly the state it was in: the
program counter still points at the `GETCHAR` and no further instruction
is executed. -/
theorem getchar_empty_input_fails (code : List IR) (st : St) (fuel : Nat)
    (h : code[st.pc]? = some IR.GETCHAR) (hin : st.inp = []) :
    step code st = .fail .inputExhausted st ∧
    run code (fuel + 1) st = .failed .inputExhausted st := by
  have hs : step code st = .fail .inputExhausted st := by
    simp only [step, h, hin]
  refine ⟨hs, ?_⟩
  rw [run, hs]

/-- C8 witness: a lone `GETCHAR` with empty input fails immediately with
`inputExhausted`, the state unchanged. -/
theorem getchar_empty_input_fails_witness :
    step [IR.GETCHAR] (initSt [0] []) = .fail .inputExhausted (initSt [0] []) ∧
    run [IR.GETCHAR] (0 + 1) (initSt [0] []) =
      .failed .inputExhausted (initSt [0] []) :=
  getchar_empty_input_fails [IR.GETCHAR] (initSt [0] []) 0 rfl rfl

/-- C10: executing `SHL x` with the data pointer at `0` only advances the
program counter: the pointer stays `0`, the tape is untouched and no
error is raised. -/
theorem shl_at_ps_zero_noop (code : List IR) (st : St) (x : Nat)
    (h : code[st.pc]? = some (IR.SHL x)) (h0 : st.ps = 0) :
    step code st = .next { st with pc := st.pc + 1 } := by
  simp [step, h, h0]

/-- C10 witness: `SHL 7` from the initial state leaves the pointer at 0
and just advances the program counter. -/
theorem shl_at_ps_zero_noop_witness :
    step [IR.SHL 7] (initSt [0] []) = .next { initSt [0] [] with pc := 0 + 1 } :=
  shl_at_ps_zero_noop [IR.SHL 7] (initSt [0] []) 7 rfl rfl



end BF
